import Mathlib

/-!
Verification of the nodecast-tv ingestion core: the M3U playlist parser
(src/server/services/m3uParser.js), the XMLTV guide parser and schedule
resolver (src/server/services/epgParser.js).  JavaScript functions are
shallowly embedded as Lean functions; machine-integer behaviour (the
32-bit rolling hash) is modelled with explicit modular arithmetic on Int,
JavaScript `null`/`undefined` as `Option`, and the thrown format error as
`Except`.  The clock value read by `Date.now()` is passed explicitly as a
`now : Nat` parameter.
-/

set_option maxHeartbeats 1600000
set_option maxRecDepth 16384

namespace NodecastTV

/-- ASCII whitespace matched by the `\s` class and by `trim` in the source
(space, tab, line feed, vertical tab, form feed, carriage return). -/
def isJsWs (c : Char) : Bool :=
  c = ' ' || c = '\t' || c = '\n' || c = '\r' || c = '\x0b' || c = '\x0c'

/-- Model of `String.prototype.trim`: strip whitespace from both ends. -/
def trimChars (cs : List Char) : List Char :=
  ((cs.dropWhile isJsWs).reverse.dropWhile isJsWs).reverse

def trimS (s : String) : String := ⟨trimChars s.data⟩

def splitLinesAux : List Char → List Char → List String
  | [], acc => [⟨acc.reverse⟩]
  | c :: cs, acc =>
    if c = '\n' then ⟨acc.reverse⟩ :: splitLinesAux cs []
    else splitLinesAux cs (c :: acc)

/-- Model of `content.split('\n')`: always yields at least one piece, keeps empty pieces. -/
def splitLines (s : String) : List String := splitLinesAux s.data []

/-- Model of `s.startsWith(p)`. -/
def strStarts (s p : String) : Bool := p.data.isPrefixOf s.data

/-- JavaScript truthiness of a nullable string: `null`/`undefined` and `""` are falsy. -/
def jsTruthy : Option String → Bool
  | none => false
  | some s => s ≠ ""

/-- JavaScript `a || b` for a nullable string `a` and a string default `b`. -/
def jsOrS (a : Option String) (b : String) : String :=
  match a with
  | some s => if s = "" then b else s
  | none => b

/-- UTF-16 code units of a character, as read by `charCodeAt`. -/
def utf16Codes (c : Char) : List Nat :=
  if c.toNat < 65536 then [c.toNat]
  else [55296 + (c.toNat - 65536) / 1024, 56320 + (c.toNat - 65536) % 1024]

/-- The sequence of UTF-16 code units of a string. -/
def utf16Str (s : String) : List Nat := (s.data.map utf16Codes).flatten

/-- Model of `ToInt32`: reduce an integer into the signed 32-bit range, as JavaScript
bitwise operators do. -/
def toInt32 (x : Int) : Int :=
  if x % 4294967296 < 2147483648 then x % 4294967296
  else x % 4294967296 - 4294967296

/-- One iteration of the rolling hash in `generateStableId`:
`hash = ((hash << 5) - hash) + char; hash = hash & hash`.  The shift
truncates its result to 32-bit signed, and `hash & hash` truncates again. -/
def hashStep (h : Int) (c : Nat) : Int := toInt32 (toInt32 (h * 32) - h + (c : Int))

/-- Digit characters used by `Number.prototype.toString(36)`: 0-9 then a-z. -/
def base36Digit (d : Nat) : Char := if d < 10 then Char.ofNat (48 + d) else Char.ofNat (87 + d)

def toBase36Aux : Nat → Nat → List Char
  | 0, _ => []
  | fuel + 1, n => if n = 0 then [] else toBase36Aux fuel (n / 36) ++ [base36Digit (n % 36)]

/-- Base-36 rendering of a natural number (64 digits is ample fuel for any
value `Math.abs` of a 32-bit hash can take). -/
def toBase36 (n : Nat) : String := if n = 0 then "0" else ⟨toBase36Aux 64 n⟩

/-- Model of `generateStableId(name, group)` from m3uParser.js: default falsy inputs to
"unknown", concatenate as "name:group", fold the rolling 32-bit hash over the
UTF-16 code units, take the absolute value, render base-36, prefix "m3u_". -/
def generateStableId (name group : Option String) : String :=
  let str := jsOrS name "unknown" ++ ":" ++ jsOrS group "unknown"
  let hash := (utf16Str str).foldl hashStep 0
  "m3u_" ++ toBase36 hash.natAbs

/-- The double-quote character, written via its code point. -/
def quoteChar : Char := Char.ofNat 34

/-- Matcher for the duration part of `/#EXTINF:(-?\d+\.?\d*)\s*(.*)/` at the
head of `cs`: an optional minus sign, at least one digit, an optional dot with
further digits.  Returns the matched characters and the remainder. -/
def readNum (cs : List Char) : Option (List Char × List Char) :=
  let p := match cs with
    | '-' :: t => ([('-' : Char)], t)
    | _ => (([] : List Char), cs)
  let sgn := p.1
  let cs1 := p.2
  let ds := cs1.takeWhile Char.isDigit
  if ds = [] then none
  else
    let cs2 := cs1.drop ds.length
    match cs2 with
    | '.' :: t =>
      let ds2 := t.takeWhile Char.isDigit
      some (sgn ++ ds ++ '.' :: ds2, t.drop ds2.length)
    | _ => some (sgn ++ ds, cs2)

/-- Attempt the EXTINF regex at the current position: the literal "#EXTINF:",
a number, greedy whitespace, then the rest of the line as group 2. -/
def extinfHere (cs : List Char) : Option (String × String) :=
  if ("#EXTINF:".data).isPrefixOf cs then
    match readNum (cs.drop 8) with
    | some (num, rest) => some (⟨num⟩, ⟨rest.dropWhile isJsWs⟩)
    | none => none
  else none

/-- First match of the unanchored regex `/#EXTINF:(-?\d+\.?\d*)\s*(.*)/` in a
line: try each position left to right. -/
def findExtinfMatch : List Char → Option (String × String)
  | [] => none
  | c :: cs =>
    match extinfHere (c :: cs) with
    | some r => some r
    | none => findExtinfMatch cs

/-- First match of `/key="([^"]*)"/i` (the key is given lowercased, with its
`="` and opening quote): scan positions left to right; at a key occurrence the
capture runs to the next double quote, and if no closing quote remains there
is no match at all (any later key occurrence would itself contain a quote). -/
def findAttrAux (key : List Char) : List Char → Option String
  | [] => none
  | c :: cs =>
    if ((c :: cs).take key.length).map Char.toLower = key then
      let after := (c :: cs).drop key.length
      let v := after.takeWhile (fun ch => ch ≠ quoteChar)
      if v.length < after.length then some ⟨v⟩ else none
    else findAttrAux key cs

/-- The characters after the last comma (used for `rest.substring(commaIndex + 1)`). -/
def afterLastComma (cs : List Char) : List Char :=
  (cs.reverse.takeWhile (fun ch => ch ≠ ',')).reverse

/-- Model of `replace(/\s+/g, '_')` : every maximal whitespace run becomes one underscore.
The Boolean records whether the previous character was whitespace. -/
def collapseWsAux : Bool → List Char → List Char
  | _, [] => []
  | prevWs, c :: cs =>
    if isJsWs c then (if prevWs then [] else ['_']) ++ collapseWsAux true cs
    else c :: collapseWsAux false cs

/-- Model of `name.toLowerCase().replace(/\s+/g, '_')`. -/
def lowerSlug (s : String) : String := ⟨collapseWsAux false (s.data.map Char.toLower)⟩

/-- The descriptor built by `parseExtinf`. -/
structure ExtinfInfo where
  duration : Option String
  tvgId : Option String
  tvgName : Option String
  tvgLogo : Option String
  groupTitle : Option String
  name : Option String
deriving Repr, DecidableEq

/-- The display name of a matched metadata line: the trimmed text after the
last comma, else `tvgName || rest.trim()`.  In either case the stored `name`
is a (possibly empty) string, never null. -/
def extinfName (tvgName : Option String) (rest : String) : Option String :=
  if rest.data.contains ',' then some ⟨trimChars (afterLastComma rest.data)⟩
  else some (jsOrS tvgName (trimS rest))

/-- Model of `info.name ? slug : channel_${Date.now()}`: the identifier synthesized
when the tvg-id attribute is falsy. -/
def synthTvgId (now : Nat) (name : Option String) : String :=
  if jsTruthy name then lowerSlug (name.getD "")
  else "channel_" ++ Nat.repr now

/-- Model of `if (!info.tvgId) info.tvgId = ...`: keep a truthy attribute value, else
synthesize. -/
def extinfTvgId (now : Nat) (tvgId0 name : Option String) : Option String :=
  if jsTruthy tvgId0 then tvgId0 else some (synthTvgId now name)

/-- Model of `parseExtinf(line)` from m3uParser.js.  `duration` keeps the raw matched
text (its numeric value is never consumed by the properties under study);
`none` models the initial `-1` of the unmatched case together with the null
attribute fields.  `now` models the value `Date.now()` would return. -/
def parseExtinf (now : Nat) (line : String) : ExtinfInfo :=
  match findExtinfMatch line.data with
  | none =>
    { duration := none, tvgId := none, tvgName := none, tvgLogo := none,
      groupTitle := none, name := none }
  | some (num, rest) =>
    let tvgId0 := findAttrAux ("tvg-id=".data ++ [quoteChar]) rest.data
    let tvgName := findAttrAux ("tvg-name=".data ++ [quoteChar]) rest.data
    let tvgLogo := findAttrAux ("tvg-logo=".data ++ [quoteChar]) rest.data
    let groupTitle := findAttrAux ("group-title=".data ++ [quoteChar]) rest.data
    let name := extinfName tvgName rest
    { duration := some num, tvgId := extinfTvgId now tvgId0 name, tvgName := tvgName,
      tvgLogo := tvgLogo, groupTitle := groupTitle, name := name }

/-- A channel emitted by `parse`. -/
structure Channel where
  duration : Option String
  tvgId : Option String
  tvgName : Option String
  tvgLogo : Option String
  name : Option String
  id : String
  url : String
  groupTitle : String
deriving Repr, DecidableEq

/-- A group record emitted by `parse`. -/
structure Group where
  id : String
  name : String
  channelCount : Nat
deriving Repr, DecidableEq

/-- Model of `Set.prototype.add`: keep first-seen insertion order, drop duplicates. -/
def insertGroup (gs : List String) (g : String) : List String :=
  if g ∈ gs then gs else gs ++ [g]

/-- Finalising a channel at a URL line: resolve the group title
(`currentInfo.groupTitle || currentGroup || 'Uncategorized'`) and the id
(`currentInfo.tvgId || generateStableId(currentInfo.name, groupTitle)`). -/
def mkChannel (info : ExtinfInfo) (grp : Option String) (url : String) : Channel :=
  let groupTitle := jsOrS info.groupTitle (jsOrS grp "Uncategorized")
  let stableId := jsOrS info.tvgId (generateStableId info.name (some groupTitle))
  { duration := info.duration, tvgId := info.tvgId, tvgName := info.tvgName,
    tvgLogo := info.tvgLogo, name := info.name, id := stableId, url := url,
    groupTitle := groupTitle }

/-- The line scan of `parse`: walk the lines after the header carrying the
pending descriptor, the current group, and the accumulated channels and
group-name set. -/
def scanLines (now : Nat) : List String → Option ExtinfInfo → Option String →
    List Channel → List String → List Channel × List String
  | [], _, _, chans, gs => (chans, gs)
  | line :: rest, info, grp, chans, gs =>
    if strStarts line "#EXTINF:" then
      let i := parseExtinf now line
      if jsTruthy i.groupTitle then
        scanLines now rest (some i) i.groupTitle chans (insertGroup gs (i.groupTitle.getD ""))
      else
        scanLines now rest (some i) grp chans gs
    else if strStarts line "#EXTGRP:" then
      let g := trimS ⟨line.data.drop 8⟩
      scanLines now rest (info.map (fun i => { i with groupTitle := some g })) (some g)
        chans (insertGroup gs g)
    else if line = "" then
      scanLines now rest info grp chans gs
    else if strStarts line "#" then
      scanLines now rest info grp chans gs
    else
      match info with
      | some i => scanLines now rest none grp (chans ++ [mkChannel i grp line]) gs
      | none => scanLines now rest none grp chans gs

/-- The value returned by `parse`. -/
structure ParseResult where
  channels : List Channel
  groups : List Group
deriving Repr, DecidableEq

def formatErrorMsg : String := "Invalid M3U format: missing #EXTM3U header"

/-- Model of `Array.from(groupsSet).map((name, index) => ...)`. -/
def mkGroups (gs : List String) (chans : List Channel) : List Group :=
  gs.enum.map (fun p =>
    { id := "group_" ++ Nat.repr p.1, name := p.2,
      channelCount := (chans.filter (fun c => c.groupTitle == p.2)).length })

/-- The successful-parse result: channels from the scan, groups derived from
the collected group names and the scanned channels. -/
def parseScan (now : Nat) (rest : List String) : ParseResult :=
  { channels := (scanLines now rest none none [] []).1,
    groups := mkGroups (scanLines now rest none none [] []).2 (scanLines now rest none none [] []).1 }

/-- Model of `parse(content)` from m3uParser.js.  The thrown error is modelled with
`Except.error`; `now` models `Date.now()` (frozen for the call).  The header
check `!lines[0] || !lines[0].startsWith('#EXTM3U')` collapses to the single
`startsWith` test because the empty string never passes it. -/
def parse (now : Nat) (content : String) : Except String ParseResult :=
  match (splitLines content).map trimS with
  | [] => Except.error formatErrorMsg
  | l0 :: rest =>
    if strStarts l0 "#EXTM3U" then Except.ok (parseScan now rest)
    else Except.error formatErrorMsg

/-! ## Spec-side reference definitions (written from the spec's words, for the
refinement claims) -/

/-- The hash step exactly as the claim words it: `hash = (hash << 5) - hash +
charCode`, truncated to 32-bit signed once at the end of each step. -/
def specHashStep (h : Int) (c : Nat) : Int := toInt32 (h * 32 - h + (c : Int))

/-- The reference stable-hash definition exactly as claim C9 words it: each
input is defaulted to the literal "unknown" only when absent. -/
def specStableId (name group : Option String) : String :=
  let str := name.getD "unknown" ++ ":" ++ group.getD "unknown"
  let hash := (utf16Str str).foldl specHashStep 0
  "m3u_" ++ toBase36 hash.natAbs

/-- The reference definition with the defaulting amended to JavaScript
falsiness: "unknown" is substituted when the input is absent or empty,
matching the source's `name || 'unknown'`. -/
def specStableIdFalsy (name group : Option String) : String :=
  let str := jsOrS name "unknown" ++ ":" ++ jsOrS group "unknown"
  let hash := (utf16Str str).foldl specHashStep 0
  "m3u_" ++ toBase36 hash.natAbs

/-- Claim C6's counting as stated: a metadata line counts when the next line,
skipping only blank lines and group-override lines, is a URL line. -/
def skipStrict (l : String) : Bool := l == "" || strStarts l "#EXTGRP:"

def urlAfterStrict : List String → Bool
  | [] => false
  | l :: ls => if skipStrict l then urlAfterStrict ls else !(strStarts l "#")

def claimCountStrict : List String → Nat
  | [] => 0
  | l :: ls =>
    (if strStarts l "#EXTINF:" && urlAfterStrict ls then 1 else 0) + claimCountStrict ls

/-- The amended counting: other comment lines (lines beginning "#" that are
not metadata lines) are also skipped when looking for the URL line. -/
def skipSoft (l : String) : Bool :=
  l == "" || (strStarts l "#" && !(strStarts l "#EXTINF:"))

def urlAfterSoft : List String → Bool
  | [] => false
  | l :: ls => if skipSoft l then urlAfterSoft ls else !(strStarts l "#EXTINF:")

def claimCountSoft : List String → Nat
  | [] => 0
  | l :: ls =>
    (if strStarts l "#EXTINF:" && urlAfterSoft ls then 1 else 0) + claimCountSoft ls

/-! ## EPG parser (epgParser.js): text extraction -/

/-- A value produced for an XMLTV element by the XML deserializer: a plain
string, a list of (possibly language-tagged) entries, or a structured node
with a merged `lang` attribute, inline text `_` and a `#text` property
(each `none` when the property is absent). -/
inductive XElem where
  | str (s : String)
  | list (xs : List XElem)
  | node (lang : Option String) (text : Option String) (htext : Option String)
deriving Repr

/-- The predicate of `element.find(e => e.lang === 'en' || !e.lang)`: strings
and arrays have no `lang` property, so they qualify as untagged; a node
qualifies when its `lang` is "en" or falsy (absent or empty). -/
def qualifies : XElem → Bool
  | .str _ => true
  | .list _ => true
  | .node lang _ _ =>
    match lang with
    | none => true
    | some l => l == "en" || l == ""

/-- Model of `extractText(element)` from epgParser.js: a falsy value (here the empty
string) yields null; a string is returned as is; for a list, recurse on
`en || element[0]` where `en` is the first entry that is English-tagged or
untagged; for a node prefer truthy `_`, then truthy `#text`, else
`String(element)` which renders an object as "[object Object]". -/
def extractText : XElem → Option String
  | .str s => if s = "" then none else some s
  | .node _ t ht =>
    if jsTruthy t then t
    else if jsTruthy ht then ht
    else some "[object Object]"
  | .list xs =>
    match hf : xs.find? qualifies with
    | some e => extractText e
    | none =>
      match hh : xs with
      | [] => none
      | e :: _ => extractText e
termination_by e => sizeOf e
decreasing_by
  · have hm : e ∈ xs := List.mem_of_find?_eq_some hf
    have := List.sizeOf_lt_of_mem hm
    simp only [XElem.list.sizeOf_spec]
    omega
  · simp only [XElem.list.sizeOf_spec, List.cons.sizeOf_spec]
    omega

/-! ## EPG parser: schedule resolver -/

/-- A programme record, restricted to the fields the schedule resolver reads;
`start` and `stop` are the epoch milliseconds of the parsed `Date`s. -/
structure Programme where
  channelId : String
  start : Int
  stop : Int
deriving Repr, DecidableEq

/-- Model of `getProgrammesForChannel(programmes, channelId)`. -/
def getProgrammesForChannel (programmes : List Programme) (channelId : String) :
    List Programme :=
  programmes.filter (fun p => p.channelId == channelId)

/-- One insertion step of a stable ascending-by-start sort: the new element
goes after every element whose start is not greater. -/
def sortedInsert (p : Programme) : List Programme → List Programme
  | [] => [p]
  | q :: qs => if p.start < q.start then p :: q :: qs else q :: sortedInsert p qs

/-- Model of `channelProgrammes.sort((a, b) => a.start - b.start)`: ECMAScript sort is
stable, modelled by stable insertion in original order. -/
def sortByStart (ps : List Programme) : List Programme :=
  ps.foldl (fun acc p => sortedInsert p acc) []

/-- Model of `getCurrentAndUpcoming(programmes, channelId, count = 5)` from
epgParser.js; `now` models the internally sampled `new Date()`. -/
def getCurrentAndUpcoming (programmes : List Programme) (channelId : String)
    (now : Int) (count : Nat) : Option Programme × List Programme :=
  let channelProgrammes := sortByStart (getProgrammesForChannel programmes channelId)
  let current := channelProgrammes.find? (fun p => decide (p.start ≤ now) && decide (now < p.stop))
  let upcoming := (channelProgrammes.filter (fun p => decide (now < p.start))).take count
  (current, upcoming)

/-! ## EPG parser: XMLTV date normalization -/

/-- A decimal digit of the `\d` class (code points 48-57). -/
def readDigit (c : Char) : Option Nat :=
  if 48 ≤ c.toNat ∧ c.toNat ≤ 57 then some (c.toNat - 48) else none

def readFixedAux (acc : Nat) : Nat → List Char → Option (Nat × List Char)
  | 0, cs => some (acc, cs)
  | _ + 1, [] => none
  | n + 1, c :: cs =>
    match readDigit c with
    | some d => readFixedAux (10 * acc + d) n cs
    | none => none

/-- Read exactly `n` decimal digits, returning their value and the rest. -/
def readFixed (n : Nat) (cs : List Char) : Option (Nat × List Char) :=
  readFixedAux 0 n cs

/-- The anchored regex
`/^(\d{4})(\d{2})(\d{2})(\d{2})(\d{2})(\d{2})\s*([+-]\d{4})?$/` of
`parseXmltvDate`, returning the six calendar fields and, when present, the
offset as (sign is plus, hours, minutes) — the source later splits the
4-digit group after two digits. -/
def xmltvZone : List Char → Option (Option (Bool × Nat × Nat))
  | [] => some none
  | c :: rest =>
    if c = '+' ∨ c = '-' then
      match readFixed 4 rest with
      | some (v, r) =>
        if r = [] then some (some (c == '+', v / 100, v % 100)) else none
      | none => none
    else none

def xmltvMatch (cs : List Char) :
    Option (Nat × Nat × Nat × Nat × Nat × Nat × Option (Bool × Nat × Nat)) :=
  match readFixed 4 cs with
  | none => none
  | some (y, r1) =>
  match readFixed 2 r1 with
  | none => none
  | some (mo, r2) =>
  match readFixed 2 r2 with
  | none => none
  | some (d, r3) =>
  match readFixed 2 r3 with
  | none => none
  | some (h, r4) =>
  match readFixed 2 r4 with
  | none => none
  | some (mi, r5) =>
  match readFixed 2 r5 with
  | none => none
  | some (s, r6) =>
  match xmltvZone (r6.dropWhile isJsWs) with
  | none => none
  | some tz => some (y, mo, d, h, mi, s, tz)

def isLeapYear (y : Nat) : Bool :=
  (y % 4 == 0) && (y % 100 != 0 || y % 400 == 0)

def daysInMonth (y mo : Nat) : Nat :=
  if mo = 2 then (if isLeapYear y then 29 else 28)
  else if mo = 4 ∨ mo = 6 ∨ mo = 9 ∨ mo = 11 then 30 else 31

/-- Days from 1970-01-01 to the given civil date (proleptic Gregorian),
Euclidean division giving floor for the positive divisors used. -/
def daysFromCivil (y mo d : Nat) : Int :=
  let yi : Int := (y : Int) - (if mo ≤ 2 then 1 else 0)
  let era : Int := yi / 400
  let yoe : Int := yi - era * 400
  let mp : Int := if mo ≤ 2 then (mo : Int) + 9 else (mo : Int) - 3
  let doy : Int := (153 * mp + 2) / 5 + ((d : Int) - 1)
  let doe : Int := yoe * 365 + yoe / 4 - yoe / 100 + doy
  era * 146097 + doe - 719468

/-- Epoch milliseconds of a UTC calendar date-time. -/
def utcMsOf (y mo d h mi s : Nat) : Int :=
  (daysFromCivil y mo d * 86400 + ((h : Int) * 3600 + (mi : Int) * 60 + (s : Int))) * 1000

/-- Signed offset in milliseconds of a parsed `±hh:mm` zone designator. -/
def tzOffsetMs : Option (Bool × Nat × Nat) → Int
  | none => 0
  | some (sg, oh, om) => (if sg then 1 else -1) * (((oh : Int) * 60 + (om : Int)) * 60000)

/-- Field validation of the ECMAScript date-time string format: months and
month-relative days in range, and either an ordinary time or the special
end-of-day "24:00:00". -/
def validFields (y mo d h mi s : Nat) : Bool :=
  decide (1 ≤ mo) && decide (mo ≤ 12) && decide (1 ≤ d) && decide (d ≤ daysInMonth y mo)
    && ((decide (h ≤ 23) && decide (mi ≤ 59) && decide (s ≤ 59))
        || (decide (h = 24) && decide (mi = 0) && decide (s = 0)))

def expectChar (c : Char) : List Char → Option (List Char)
  | [] => none
  | x :: xs => if x = c then some xs else none

/-- The zone-designator tail of the ECMAScript date-time string format:
`Z`, or a signed in-range `hh:mm` offset applied to the base instant.  A
missing designator would be interpreted in local time; `parseXmltvDate`
never builds that shape, and it is left unmodelled as `none`. -/
def jsParseZone (base : Int) : List Char → Option Int
  | [] => none
  | c :: rest =>
    if c = 'Z' then (if rest = [] then some base else none)
    else if c = '+' ∨ c = '-' then
      match readFixed 2 rest with
      | some (oh, r7) =>
        match expectChar ':' r7 with
        | some r7b =>
          match readFixed 2 r7b with
          | some (om, r8) =>
            if r8 = [] then
              if oh ≤ 23 && om ≤ 59 then some (base - tzOffsetMs (some (c == '+', oh, om)))
              else none
            else none
          | none => none
        | none => none
      | none => none
    else none

/-- Model of `new Date(isoStr)` on the strings `parseXmltvDate` builds:
`YYYY-MM-DDTHH:MM:SS` followed by `Z` or a signed `hh:mm` offset, per the
ECMAScript date-time string format (out-of-range fields give an invalid
date, modelled as `none`). -/
def jsParseIso (cs : List Char) : Option Int :=
  match readFixed 4 cs with
  | none => none
  | some (y, r1) =>
  match expectChar '-' r1 with
  | none => none
  | some r1b =>
  match readFixed 2 r1b with
  | none => none
  | some (mo, r2) =>
  match expectChar '-' r2 with
  | none => none
  | some r2b =>
  match readFixed 2 r2b with
  | none => none
  | some (d, r3) =>
  match expectChar 'T' r3 with
  | none => none
  | some r3b =>
  match readFixed 2 r3b with
  | none => none
  | some (h, r4) =>
  match expectChar ':' r4 with
  | none => none
  | some r4b =>
  match readFixed 2 r4b with
  | none => none
  | some (mi, r5) =>
  match expectChar ':' r5 with
  | none => none
  | some r5b =>
  match readFixed 2 r5b with
  | none => none
  | some (s, r6) =>
  if validFields y mo d h mi s then jsParseZone (utcMsOf y mo d h mi s) r6
  else none

/-- The ISO string spliced by `parseXmltvDate` from the match's group
substrings (which sit at fixed positions once the anchored pattern matches):
`year-month-dayThour:minute:second` plus `Z` or the offset with a colon
inserted after `substring(0, 3)`. -/
def xmltvIso (cs : List Char) : List Char :=
  cs.take 4 ++ '-' :: ((cs.drop 4).take 2) ++ '-' :: ((cs.drop 6).take 2)
    ++ 'T' :: ((cs.drop 8).take 2) ++ ':' :: ((cs.drop 10).take 2)
    ++ ':' :: ((cs.drop 12).take 2)
    ++ (match (cs.drop 14).dropWhile isJsWs with
        | [] => ['Z']
        | c :: rest => (c :: rest).take 3 ++ ':' :: (c :: rest).drop 3)

/-- The outcome of `parseXmltvDate`. -/
inductive DateResult where
  | nullDate
  | generic (raw : String)
  | instant (ms : Int)
  | invalid
deriving Repr, DecidableEq

/-- Model of `parseXmltvDate(dateStr)` from epgParser.js: falsy input gives null; a
non-matching string falls back to generic `new Date(dateStr)` parsing
(implementation-defined, kept abstract as `generic`); a matching string is
respliced into an ISO string and handed to `new Date`, giving a valid
instant or an invalid date. -/
def parseXmltvDate (s : String) : DateResult :=
  if s = "" then DateResult.nullDate
  else
    match xmltvMatch s.data with
    | none => DateResult.generic s
    | some _ =>
      match jsParseIso (xmltvIso s.data) with
      | some ms => DateResult.instant ms
      | none => DateResult.invalid

/-! ## Concrete records used by the witnesses -/

def newsLine : String := "#EXTM3U\n#EXTINF:-1 group-title=\"News\",Channel A\nhttp://a"

def newsChan : Channel :=
  { duration := some "-1", tvgId := some "channel_a", tvgName := none, tvgLogo := none,
    name := some "Channel A", id := "channel_a", url := "http://a", groupTitle := "News" }

def newsRes : ParseResult := { channels := [newsChan], groups := [⟨"group_0", "News", 1⟩] }

def newsLine2 : String :=
  "#EXTM3U\n#EXTINF:-1 group-title=\"News\",Channel A\nhttp://a\n#EXTINF:-1 group-title=\"News\",Channel B\nhttp://b\n"

def newsChanB : Channel :=
  { duration := some "-1", tvgId := some "channel_b", tvgName := none, tvgLogo := none,
    name := some "Channel B", id := "channel_b", url := "http://b", groupTitle := "News" }

def newsRes2 : ParseResult :=
  { channels := [newsChan, newsChanB], groups := [⟨"group_0", "News", 2⟩] }

def progA : Programme := { channelId := "a", start := 0, stop := 10 }

def progB : Programme := { channelId := "a", start := 20, stop := 30 }

/-! ## Arithmetic lemmas for the 32-bit hash -/

theorem toInt32_emod (x : Int) :
    toInt32 x % 4294967296 = x % 4294967296 := by
  unfold toInt32; split <;> omega

theorem toInt32_congr {a b : Int}
    (h : a % 4294967296 = b % 4294967296) : toInt32 a = toInt32 b := by
  unfold toInt32; rw [h]

theorem hashStep_eq_spec (h : Int) (c : Nat) : hashStep h c = specHashStep h c := by
  unfold hashStep specHashStep
  refine toInt32_congr ?_
  have := toInt32_emod (h * 32)
  omega

theorem hashStep_eq : hashStep = specHashStep :=
  funext fun h => funext fun c => hashStep_eq_spec h c

/-! ## Claim C9: the stable-hash function against its reference definition -/

/-- Claim C9 counterexample: the claim defaults an input to "unknown" only
when it is absent, but the source's `name || 'unknown'` also defaults the
empty string, so the two functions disagree on a present-but-empty name. -/
theorem m3u_hash_ref_cex :
    generateStableId (some "") (some "TV") ≠ specStableId (some "") (some "TV") := by
  decide

/-- Claim C9 (amended): with defaulting applied to absent or empty (JavaScript
falsy) inputs, `generateStableId` coincides with the reference definition:
concatenate "name:group", fold `hash = (hash << 5) - hash + charCode`
truncated to 32-bit signed at each step from 0, take the absolute value,
render base-36 and prefix "m3u_" (the inner truncation the source's shift
performs is arithmetically redundant). -/
theorem m3u_hash_ref (name group : Option String) :
    generateStableId name group = specStableIdFalsy name group := by
  unfold generateStableId specStableIdFalsy
  rw [hashStep_eq]

/-! ## Claim C3: identifier stability across two parses of the same text -/

/-- Claim C3 evaluation: the same playlist text parsed at clock values 0 and 1
yields different channel ids, because a matched metadata line with an empty
display name gets a `channel_${Date.now()}` identifier. -/
theorem m3u_id_time_dependent :
    (parse 0 "#EXTM3U\n#EXTINF:-1,\nhttp://u").toOption.map
        (fun r => r.channels.map Channel.id) = some ["channel_0"]
      ∧ (parse 1 "#EXTM3U\n#EXTINF:-1,\nhttp://u").toOption.map
        (fun r => r.channels.map Channel.id) = some ["channel_1"] := by
  exact ⟨by decide, by decide⟩

/-! ## Claim C1: group channel counts versus total channel count -/

/-- Claim C1 counterexample: a playlist whose single channel falls back to the
sentinel group "Uncategorized" parses successfully, yet the groups list is
empty, so the channel-count sum (0) differs from the channel total (1). -/
theorem m3u_group_sum_cex :
    (parse 0 "#EXTM3U\n#EXTINF:-1,A\nhttp://a").toOption.map
        (fun r => (r.groups.map Group.channelCount).sum == r.channels.length)
      = some false := by
  decide

/-! ## Claim C2: channel id versus tvg-id attribute and hash fallback -/

/-- Claim C2 counterexample: with no tvg-id attribute on the metadata line the
claim requires the id to be the stable hash of name and group, but the parser
uses the identifier `parseExtinf` synthesized from the display name. -/
theorem m3u_channel_id_cex :
    (parse 0 "#EXTM3U\n#EXTINF:-1,Channel A\nhttp://a").toOption.map
        (fun r => r.channels.map Channel.id) = some ["channel_a"]
      ∧ "channel_a" ≠ generateStableId (some "Channel A") (some "Uncategorized") := by
  exact ⟨by decide, by decide⟩

/-! ## Claim C10: totality of the synthesized tvgId -/

/-- Claim C10 counterexample: a metadata line whose duration does not parse
(`#EXTINF:x`) makes `parseExtinf` return early with a null tvgId, so the
stable-hash fallback branch of `parse` is reachable. -/
theorem m3u_tvgid_total_cex :
    (parseExtinf 0 "#EXTINF:x").tvgId = none
      ∧ (parse 0 "#EXTM3U\n#EXTINF:x\nhttp://u").toOption.map
          (fun r => r.channels.map Channel.id)
        = some [generateStableId none (some "Uncategorized")] := by
  exact ⟨by decide, by decide⟩

/-! ## Claim C6: channel count counterexample -/

/-- Claim C6 counterexample: an ordinary comment line between the metadata
line and the URL line does not clear the pending descriptor, so a channel is
emitted although the claim's count (which skips only blank and group-override
lines) is zero. -/
theorem m3u_channel_count_cex :
    (parse 0 "#EXTM3U\n#EXTINF:-1,A\n#x\nhttp://u").toOption.map
        (fun r => r.channels.length) = some 1
      ∧ claimCountStrict
          (((splitLines "#EXTM3U\n#EXTINF:-1,A\n#x\nhttp://u").map trimS).drop 1) = 0 := by
  exact ⟨by decide, by decide⟩

/-! ## Inversion of a successful parse -/

theorem splitLinesAux_ne_nil (cs acc : List Char) : splitLinesAux cs acc ≠ [] := by
  induction cs generalizing acc with
  | nil => simp [splitLinesAux]
  | cons c cs ih =>
    simp only [splitLinesAux]
    split
    · simp
    · exact ih _

theorem splitLines_ne_nil (s : String) : splitLines s ≠ [] :=
  splitLinesAux_ne_nil s.data []

theorem parse_ok_elim {now : Nat} {content : String} {r : ParseResult}
    (hp : parse now content = Except.ok r) :
    ∃ l0 rest, (splitLines content).map trimS = l0 :: rest
      ∧ strStarts l0 "#EXTM3U" = true ∧ r = parseScan now rest := by
  unfold parse at hp
  cases hl : (splitLines content).map trimS with
  | nil => rw [hl] at hp; exact absurd hp (by simp)
  | cons l0 rest =>
    rw [hl] at hp
    dsimp only at hp
    by_cases h0 : strStarts l0 "#EXTM3U" = true
    · rw [if_pos h0] at hp
      injection hp with h
      exact ⟨l0, rest, rfl, h0, h.symm⟩
    · rw [if_neg h0] at hp
      exact absurd hp (by simp)

/-! ## Scan invariants -/

/-- Every channel the scan emits carries the id equation of `mkChannel`. -/
theorem scan_id_ok (now : Nat) (lines : List String) :
    ∀ (info : Option ExtinfInfo) (grp : Option String)
      (chans : List Channel) (gs : List String),
      (∀ c ∈ chans, c.id = jsOrS c.tvgId (generateStableId c.name (some c.groupTitle))) →
      ∀ c ∈ (scanLines now lines info grp chans gs).1,
        c.id = jsOrS c.tvgId (generateStableId c.name (some c.groupTitle)) := by
  induction lines with
  | nil => intro info grp chans gs h c hc; exact h c hc
  | cons line rest ih =>
    intro info grp chans gs h c hc
    simp only [scanLines] at hc
    split at hc
    · split at hc
      · exact ih _ _ _ _ h c hc
      · exact ih _ _ _ _ h c hc
    · split at hc
      · exact ih _ _ _ _ h c hc
      · split at hc
        · exact ih _ _ _ _ h c hc
        · split at hc
          · exact ih _ _ _ _ h c hc
          · cases info with
            | some i =>
              refine ih _ _ _ _ ?_ c hc
              intro c2 hc2
              rcases List.mem_append.mp hc2 with h1 | h2
              · exact h c2 h1
              · rw [List.mem_singleton.mp h2]; rfl
            | none => exact ih _ _ _ _ h c hc

/-- With no pending descriptor and no metadata lines, the scan emits nothing. -/
theorem scan_no_extinf (now : Nat) (lines : List String) :
    ∀ (grp : Option String) (chans : List Channel) (gs : List String),
      (∀ l ∈ lines, strStarts l "#EXTINF:" = false) →
      (scanLines now lines none grp chans gs).1 = chans := by
  induction lines with
  | nil => intro grp chans gs _; rfl
  | cons line rest ih =>
    intro grp chans gs h
    have h0 : strStarts line "#EXTINF:" = false := h line (List.mem_cons_self _ _)
    have hr : ∀ l ∈ rest, strStarts l "#EXTINF:" = false :=
      fun l hl => h l (List.mem_cons_of_mem _ hl)
    simp only [scanLines]
    rw [if_neg (by simp [h0])]
    split
    · exact ih _ _ _ hr
    · split
      · exact ih _ _ _ hr
      · split
        · exact ih _ _ _ hr
        · exact ih _ _ _ hr

/-- The collected group names stay duplicate-free. -/
theorem insertGroup_nodup {gs : List String} {g : String} (h : gs.Nodup) :
    (insertGroup gs g).Nodup := by
  unfold insertGroup
  split
  · exact h
  · next hmem => simp [List.nodup_append, h, hmem]

theorem scan_gs_nodup (now : Nat) (lines : List String) :
    ∀ (info : Option ExtinfInfo) (grp : Option String)
      (chans : List Channel) (gs : List String),
      gs.Nodup → ((scanLines now lines info grp chans gs).2).Nodup := by
  induction lines with
  | nil => intro info grp chans gs h; exact h
  | cons line rest ih =>
    intro info grp chans gs h
    simp only [scanLines]
    split
    · split
      · exact ih _ _ _ _ (insertGroup_nodup h)
      · exact ih _ _ _ _ h
    · split
      · exact ih _ _ _ _ (insertGroup_nodup h)
      · split
        · exact ih _ _ _ _ h
        · split
          · exact ih _ _ _ _ h
          · cases info with
            | some i => exact ih _ _ _ _ h
            | none => exact ih _ _ _ _ h

/-- The channel total emitted by the scan, with a pending descriptor adding
one exactly when the next significant line is a URL line. -/
theorem scan_len (now : Nat) (lines : List String) :
    ∀ (info : Option ExtinfInfo) (grp : Option String)
      (chans : List Channel) (gs : List String),
      (scanLines now lines info grp chans gs).1.length
        = chans.length
          + (match info with
             | some _ => if urlAfterSoft lines then 1 else 0
             | none => 0)
          + claimCountSoft lines := by
  induction lines with
  | nil =>
    intro info grp chans gs
    cases info <;> simp [scanLines, urlAfterSoft, claimCountSoft]
  | cons line rest ih =>
    intro info grp chans gs
    simp only [scanLines]
    by_cases h1 : strStarts line "#EXTINF:" = true
    · have hne : line ≠ "" := by
        intro he; rw [he] at h1; exact absurd h1 (by decide)
      have hskip : skipSoft line = false := by simp [skipSoft, h1, hne]
      have hurl : urlAfterSoft (line :: rest) = false := by
        simp [urlAfterSoft, hskip, h1]
      have hcnt : claimCountSoft (line :: rest)
          = (if urlAfterSoft rest then 1 else 0) + claimCountSoft rest := by
        simp [claimCountSoft, h1]
      rw [if_pos h1]
      split
      · rw [ih, hcnt, hurl]; cases info <;> simp <;> omega
      · rw [ih, hcnt, hurl]; cases info <;> simp <;> omega
    · have hcnt : claimCountSoft (line :: rest) = claimCountSoft rest := by
        simp [claimCountSoft, h1]
      rw [if_neg h1]
      by_cases h2 : strStarts line "#EXTGRP:" = true
      · have hsharp : strStarts line "#" = true := by
          unfold strStarts at h2 ⊢
          rw [ List.isPrefixOf_iff_prefix] at h2 ⊢
          exact List.IsPrefix.trans (by decide) h2
        have hskip : skipSoft line = true := by simp [skipSoft, hsharp, h1]
        have hurl : urlAfterSoft (line :: rest) = urlAfterSoft rest := by
          simp [urlAfterSoft, hskip]
        rw [if_pos h2, ih, hcnt]
        cases info <;> simp [hurl]
      · rw [if_neg h2]
        by_cases h3 : line = ""
        · have hskip : skipSoft line = true := by simp [skipSoft, h3]
          have hurl : urlAfterSoft (line :: rest) = urlAfterSoft rest := by
            simp [urlAfterSoft, hskip]
          rw [if_pos h3, ih, hcnt]
          cases info <;> simp [hurl]
        · rw [if_neg h3]
          by_cases h4 : strStarts line "#" = true
          · have hskip : skipSoft line = true := by simp [skipSoft, h4, h1]
            have hurl : urlAfterSoft (line :: rest) = urlAfterSoft rest := by
              simp [urlAfterSoft, hskip]
            rw [if_pos h4, ih, hcnt]
            cases info <;> simp [hurl]
          · have hskip : skipSoft line = false := by simp [skipSoft, h3, h4]
            have hurl : urlAfterSoft (line :: rest) = true := by
              simp [urlAfterSoft, hskip, h1]
            rw [if_neg h4]
            cases info with
            | some i =>
              rw [ih, hcnt]
              simp [hurl, List.length_append]
              try omega
            | none =>
              rw [ih, hcnt]
              try simp

/-! ## Claim C5: header check counterexample -/

/-- Claim C5 counterexample: a playlist whose first line is blank and whose
first non-empty line is the header marker is still rejected, because the
source checks `lines[0]` rather than the first non-empty line. -/
theorem m3u_header_cex :
    parse 0 "\n#EXTM3U" = Except.error formatErrorMsg
      ∧ ((((splitLines "\n#EXTM3U").map trimS).filter (fun l => l != "")).head?).map
          (fun l => strStarts l "#EXTM3U") = some true := by
  exact ⟨by rfl, by decide⟩

/-! ## Non-emptiness of synthesized identifiers -/

theorem collapseWs_cons_ne (c : Char) (cs : List Char) :
    collapseWsAux false (c :: cs) ≠ [] := by
  simp only [collapseWsAux]
  split <;> simp

theorem lowerSlug_ne_empty {t : String} (h : t ≠ "") : lowerSlug t ≠ "" := by
  cases t with
  | mk l =>
    cases l with
    | nil => exact absurd rfl h
    | cons c cs =>
      intro he
      have hd := congrArg String.data he
      exact collapseWs_cons_ne (Char.toLower c) (cs.map Char.toLower) (by simpa [lowerSlug] using hd)

theorem channelNow_ne_empty (now : Nat) : ("channel_" ++ Nat.repr now) ≠ "" := by
  intro h
  have hl := congrArg String.length h
  rw [String.length_append] at hl
  have h8 : ("channel_" : String).length = 8 := rfl
  have h0 : ("" : String).length = 0 := rfl
  rw [h8, h0] at hl
  omega

theorem synthTvgId_ne_empty (now : Nat) (t : String) : synthTvgId now (some t) ≠ "" := by
  unfold synthTvgId
  by_cases h0 : t = ""
  · rw [if_neg (by simp [jsTruthy, h0])]
    exact channelNow_ne_empty now
  · rw [if_pos (by simp [jsTruthy, h0])]
    exact lowerSlug_ne_empty h0

theorem extinfName_is_some (tvgName : Option String) (rest : String) :
    ∃ t, extinfName tvgName rest = some t := by
  unfold extinfName
  split <;> exact ⟨_, rfl⟩

theorem extinfTvgId_truthy (now : Nat) (tvgId0 : Option String) {name : Option String}
    (h : ∃ t, name = some t) : jsTruthy (extinfTvgId now tvgId0 name) = true := by
  obtain ⟨t, rfl⟩ := h
  unfold extinfTvgId
  by_cases ht : jsTruthy tvgId0 = true
  · rw [if_pos ht]; exact ht
  · rw [if_neg ht]
    simp [jsTruthy, synthTvgId_ne_empty now t]

theorem parseExtinf_tvgId_of_match {line num rest : String} {now : Nat}
    (h : findExtinfMatch line.data = some (num, rest)) :
    (parseExtinf now line).tvgId
      = extinfTvgId now (findAttrAux ("tvg-id=".data ++ [quoteChar]) rest.data)
          (extinfName (findAttrAux ("tvg-name=".data ++ [quoteChar]) rest.data) rest) := by
  unfold parseExtinf
  rw [h]

/-! ## Claim C2 (amended): the emitted id equation -/

/-- Claim C2 (amended): every emitted channel's id equals its descriptor's
tvgId when that is non-null and non-empty (which, whenever the metadata
line's duration pattern matched, is the tvg-id attribute or the identifier
synthesized from the display name); only otherwise is it the stable hash of
the channel's name and resolved group title. -/
theorem m3u_channel_id (now : Nat) (content : String) (r : ParseResult) (c : Channel)
    (hp : parse now content = Except.ok r) (hc : c ∈ r.channels) :
    c.id = jsOrS c.tvgId (generateStableId c.name (some c.groupTitle)) := by
  obtain ⟨l0, rest, hl, h0, rfl⟩ := parse_ok_elim hp
  exact scan_id_ok now rest none none [] []
    (fun c2 h2 => absurd h2 (List.not_mem_nil c2)) c hc

theorem m3u_channel_id_witness :
    parse 0 newsLine = Except.ok newsRes ∧ newsChan ∈ newsRes.channels
      ∧ newsChan.id = jsOrS newsChan.tvgId
          (generateStableId newsChan.name (some newsChan.groupTitle)) :=
  ⟨by rfl, by decide,
   m3u_channel_id 0 newsLine newsRes newsChan (by rfl) (by decide)⟩

/-! ## Claim C10 (amended): synthesized tvgId totality on matched lines -/

/-- Claim C10 (amended): whenever the metadata line's duration pattern
matches, `parseExtinf` returns a non-empty (truthy) tvgId, and every emitted
channel whose descriptor tvgId is truthy keeps it verbatim as its id; the
hash fallback remains reachable only for metadata lines whose duration does
not parse. -/
theorem m3u_tvgid_total :
    (∀ (now : Nat) (line num rest : String),
        findExtinfMatch line.data = some (num, rest) →
        jsTruthy (parseExtinf now line).tvgId = true)
      ∧ (∀ (now : Nat) (content : String) (r : ParseResult) (c : Channel),
          parse now content = Except.ok r → c ∈ r.channels →
          jsTruthy c.tvgId = true → c.id = c.tvgId.getD "") := by
  constructor
  · intro now line num rest h
    rw [parseExtinf_tvgId_of_match h]
    exact extinfTvgId_truthy now _ (extinfName_is_some _ _)
  · intro now content r c hp hc ht
    obtain ⟨l0, rest, hl, h0, rfl⟩ := parse_ok_elim hp
    have hid := scan_id_ok now rest none none [] []
      (fun c2 h2 => absurd h2 (List.not_mem_nil c2)) c hc
    cases hct : c.tvgId with
    | none => rw [hct] at ht; simp [jsTruthy] at ht
    | some t =>
      rw [hct] at ht hid
      simp only [jsTruthy, decide_eq_true_eq] at ht
      rw [hid]
      simp [jsOrS, ht]

theorem m3u_tvgid_total_witness :
    jsTruthy (parseExtinf 0 "#EXTINF:-1,Channel A").tvgId = true
      ∧ newsChan.id = newsChan.tvgId.getD "" :=
  ⟨m3u_tvgid_total.1 0 "#EXTINF:-1,Channel A" "-1" ",Channel A" (by decide),
   m3u_tvgid_total.2 0 newsLine newsRes newsChan (by rfl) (by decide) (by decide)⟩

/-! ## Claim C5 (amended): the header check is on the literal first line -/

/-- Claim C5 (amended): `parse` raises the format error exactly when the
trimmed literal first line (not the first non-empty line) fails to begin
with the playlist header marker, this is the only error, and a URL line
with no metadata line before it yields no channel. -/
theorem m3u_header_error_iff (now : Nat) (content : String) :
    (parse now content = Except.error formatErrorMsg
        ↔ strStarts (trimS ((splitLines content).headD "")) "#EXTM3U" = false)
      ∧ (∀ r, parse now content = Except.ok r →
          (∀ l ∈ ((splitLines content).map trimS).drop 1, strStarts l "#EXTINF:" = false) →
          r.channels = []) := by
  constructor
  · cases hl : splitLines content with
    | nil => exact absurd hl (splitLines_ne_nil content)
    | cons l0 ls =>
      unfold parse
      rw [hl]
      simp only [List.map_cons, List.headD_cons]
      by_cases h0 : strStarts (trimS l0) "#EXTM3U" = true
      · rw [if_pos h0]
        simp [h0]
      · rw [if_neg h0]
        simp only [Bool.not_eq_true] at h0
        simp [h0]
  · intro r hp hno
    obtain ⟨l0, rest, hl, h0, rfl⟩ := parse_ok_elim hp
    show (scanLines now rest none none [] []).1 = []
    apply scan_no_extinf
    intro l hlmem
    apply hno
    rw [hl]
    simpa using hlmem

theorem m3u_header_error_iff_witness :
    parse 0 "#EXTM3U\nhttp://a" = Except.ok ⟨[], []⟩
      ∧ (⟨[], []⟩ : ParseResult).channels = [] :=
  ⟨by rfl,
   (m3u_header_error_iff 0 "#EXTM3U\nhttp://a").2 ⟨[], []⟩ (by rfl) (by decide)⟩

/-! ## Claim C6 (amended): channel count with comment lines skipped too -/

/-- Claim C6 (amended): the number of emitted channels equals the number of
metadata lines followed — skipping blank lines, group-override lines, and
any other comment lines — by a URL line. -/
theorem m3u_channel_count (now : Nat) (content : String) (r : ParseResult)
    (hp : parse now content = Except.ok r) :
    r.channels.length = claimCountSoft (((splitLines content).map trimS).drop 1) := by
  obtain ⟨l0, rest, hl, h0, rfl⟩ := parse_ok_elim hp
  show (scanLines now rest none none [] []).1.length = _
  rw [scan_len, hl]
  simp

/-! ## Claim C1 (amended): group accounting -/

theorem countP_or_disjoint {α : Type} (p q : α → Bool) (l : List α)
    (h : ∀ a ∈ l, ¬(p a = true ∧ q a = true)) :
    l.countP (fun a => p a || q a) = l.countP p + l.countP q := by
  induction l with
  | nil => simp
  | cons a t ih =>
    have ha := h a (List.mem_cons_self a t)
    have ht := fun b hb => h b (List.mem_cons_of_mem a hb)
    rw [List.countP_cons, List.countP_cons, List.countP_cons, ih ht]
    by_cases hpa : p a = true
    · by_cases hqa : q a = true
      · exact absurd ⟨hpa, hqa⟩ ha
      · rw [Bool.not_eq_true] at hqa
        simp [hpa, hqa]
        omega
    · rw [Bool.not_eq_true] at hpa
      by_cases hqa : q a = true
      · simp [hpa, hqa]
        omega
      · rw [Bool.not_eq_true] at hqa
        simp [hpa, hqa]

theorem mem_cons_decide (g : String) (gs : List String) (x : String) :
    decide (x ∈ g :: gs) = ((x == g) || decide (x ∈ gs)) := by
  by_cases hx : x = g <;> by_cases hx2 : x ∈ gs <;> simp [hx, hx2]

theorem sum_group_counts (chans : List Channel) :
    ∀ gs : List String, gs.Nodup →
      (gs.map (fun g => (chans.filter (fun c => c.groupTitle == g)).length)).sum
        = (chans.filter (fun c => decide (c.groupTitle ∈ gs))).length := by
  intro gs
  induction gs with
  | nil => simp
  | cons g t ih =>
    intro hnd
    rw [List.nodup_cons] at hnd
    obtain ⟨hg, ht⟩ := hnd
    rw [List.map_cons, List.sum_cons, ih ht]
    simp only [mem_cons_decide]
    rw [← List.countP_eq_length_filter, ← List.countP_eq_length_filter,
      ← List.countP_eq_length_filter]
    refine (countP_or_disjoint _ _ chans ?_).symm
    intro a _ hcontra
    obtain ⟨h1, h2⟩ := hcontra
    exact hg (by rw [← eq_of_beq h1]; exact of_decide_eq_true h2)

theorem mkGroups_names (gs : List String) (chans : List Channel) :
    (mkGroups gs chans).map Group.name = gs := by
  unfold mkGroups
  rw [List.map_map]
  have h : (Group.name ∘ fun p : Nat × String =>
      ({ id := "group_" ++ Nat.repr p.1, name := p.2,
         channelCount := (chans.filter (fun c => c.groupTitle == p.2)).length } : Group))
      = Prod.snd := rfl
  rw [h, List.enum_map_snd]

theorem mkGroups_counts (gs : List String) (chans : List Channel) :
    (mkGroups gs chans).map Group.channelCount
      = gs.map (fun g => (chans.filter (fun c => c.groupTitle == g)).length) := by
  unfold mkGroups
  rw [List.map_map]
  have h : (Group.channelCount ∘ fun p : Nat × String =>
      ({ id := "group_" ++ Nat.repr p.1, name := p.2,
         channelCount := (chans.filter (fun c => c.groupTitle == p.2)).length } : Group))
      = (fun g => (chans.filter (fun c => c.groupTitle == g)).length) ∘ Prod.snd := rfl
  rw [h, ← List.map_map, List.enum_map_snd]

/-- Claim C1 (amended): the channel counts of the returned groups sum to the
number of channels whose group title is one of the returned group names;
channels defaulted to the sentinel "Uncategorized" belong to no returned
group unless that name was explicitly declared. -/
theorem m3u_group_sum (now : Nat) (content : String) (r : ParseResult)
    (hp : parse now content = Except.ok r) :
    (r.groups.map Group.channelCount).sum
      = (r.channels.filter
          (fun c => decide (c.groupTitle ∈ r.groups.map Group.name))).length := by
  obtain ⟨l0, rest, hl, h0, rfl⟩ := parse_ok_elim hp
  show ((mkGroups (scanLines now rest none none [] []).2
          (scanLines now rest none none [] []).1).map Group.channelCount).sum
    = (((scanLines now rest none none [] []).1).filter
        (fun c => decide (c.groupTitle ∈ (mkGroups (scanLines now rest none none [] []).2
            (scanLines now rest none none [] []).1).map Group.name))).length
  rw [mkGroups_counts, mkGroups_names]
  exact sum_group_counts _ _ (scan_gs_nodup now rest none none [] [] List.nodup_nil)

theorem m3u_group_sum_witness :
    parse 0 newsLine = Except.ok newsRes
      ∧ (newsRes.groups.map Group.channelCount).sum
          = (newsRes.channels.filter
              (fun c => decide (c.groupTitle ∈ newsRes.groups.map Group.name))).length
      ∧ (newsRes.groups.map Group.channelCount).sum = 1 :=
  ⟨by rfl, m3u_group_sum 0 newsLine newsRes (by rfl), by decide⟩

theorem m3u_channel_count_witness :
    parse 0 newsLine2 = Except.ok newsRes2
      ∧ newsRes2.channels.length = claimCountSoft (((splitLines newsLine2).map trimS).drop 1)
      ∧ claimCountSoft (((splitLines newsLine2).map trimS).drop 1) = 2 :=
  ⟨by rfl, m3u_channel_count 0 newsLine2 newsRes2 (by rfl), by decide⟩

/-! ## Claim C4: the schedule resolver -/

theorem sortedInsert_perm (p : Programme) (l : List Programme) :
    (sortedInsert p l).Perm (p :: l) := by
  induction l with
  | nil => exact List.Perm.refl _
  | cons q qs ih =>
    simp only [sortedInsert]
    split
    · exact List.Perm.refl _
    · exact (ih.cons q).trans (List.Perm.swap p q qs)

theorem sortedInsert_sorted (p : Programme) {l : List Programme}
    (hl : l.Sorted (fun a b => a.start ≤ b.start)) :
    (sortedInsert p l).Sorted (fun a b => a.start ≤ b.start) := by
  induction l with
  | nil => simp [sortedInsert]
  | cons q qs ih =>
    rw [List.sorted_cons] at hl
    obtain ⟨hq, hqs⟩ := hl
    simp only [sortedInsert]
    split
    · next hlt =>
      rw [List.sorted_cons]
      refine ⟨?_, ?_⟩
      · intro b hb
        rcases List.mem_cons.mp hb with rfl | hb2
        · exact le_of_lt hlt
        · exact le_trans (le_of_lt hlt) (hq b hb2)
      · rw [List.sorted_cons]; exact ⟨hq, hqs⟩
    · next hnlt =>
      rw [List.sorted_cons]
      refine ⟨?_, ih hqs⟩
      intro b hb
      have hb2 : b ∈ p :: qs := (sortedInsert_perm p qs).mem_iff.mp hb
      rcases List.mem_cons.mp hb2 with rfl | hb3
      · exact le_of_not_lt hnlt
      · exact hq b hb3

theorem sortByStart_aux_perm (ps : List Programme) :
    ∀ acc, (ps.foldl (fun acc p => sortedInsert p acc) acc).Perm (acc ++ ps) := by
  induction ps with
  | nil => intro acc; simp
  | cons p ps ih =>
    intro acc
    simp only [List.foldl_cons]
    refine (ih (sortedInsert p acc)).trans ?_
    refine ((sortedInsert_perm p acc).append_right ps).trans ?_
    exact List.perm_middle.symm

theorem sortByStart_perm (ps : List Programme) : (sortByStart ps).Perm ps := by
  simpa [sortByStart] using sortByStart_aux_perm ps []

theorem sortByStart_aux_sorted (ps : List Programme) :
    ∀ acc, acc.Sorted (fun a b => a.start ≤ b.start) →
      (ps.foldl (fun acc p => sortedInsert p acc) acc).Sorted
        (fun a b => a.start ≤ b.start) := by
  induction ps with
  | nil => intro acc h; simpa using h
  | cons p ps ih =>
    intro acc h
    simp only [List.foldl_cons]
    exact ih _ (sortedInsert_sorted p h)

theorem sortByStart_sorted (ps : List Programme) :
    (sortByStart ps).Sorted (fun a b => a.start ≤ b.start) :=
  sortByStart_aux_sorted ps [] (by simp)

/-- In a list sorted ascending by start, the programme `find?` returns has
minimal start among those satisfying the predicate. -/
theorem find_first_min {pr : Programme → Bool} :
    ∀ {l : List Programme}, l.Sorted (fun a b => a.start ≤ b.start) →
      ∀ {p : Programme}, l.find? pr = some p →
      ∀ q ∈ l, pr q = true → p.start ≤ q.start := by
  intro l
  induction l with
  | nil => intro _ p h; simp [List.find?] at h
  | cons x t ih =>
    intro hs p hf q hq hprq
    rw [List.sorted_cons] at hs
    obtain ⟨hx, ht⟩ := hs
    by_cases hpx : pr x = true
    · rw [List.find?_cons_of_pos _ hpx] at hf
      injection hf with hf
      subst hf
      rcases List.mem_cons.mp hq with rfl | hq2
      · exact le_refl _
      · exact hx q hq2
    · rw [List.find?_cons_of_neg _ hpx] at hf
      rcases List.mem_cons.mp hq with rfl | hq2
      · exact absurd hprq hpx
      · exact ih ht hf q hq2 hprq

theorem pairwise_take_drop {R : Programme → Programme → Prop} {l : List Programme}
    (h : l.Pairwise R) (n : Nat) :
    ∀ p ∈ l.take n, ∀ q ∈ l.drop n, R p q := by
  have h2 : (l.take n ++ l.drop n).Pairwise R := by
    rw [List.take_append_drop]; exact h
  exact (List.pairwise_append.mp h2).2.2

/-- Claim C4: the resolver's `current` is the first programme, in ascending
start order among the exactly-channel-matching programmes, with
`start <= referenceTime < stop` (none when no programme qualifies), and
`upcoming` consists of the first `count` matching programmes with
`start > referenceTime`, in ascending start order: it contains only such
programmes, is sorted, has length `min count (number of qualifying
programmes)`, and omits no qualifying programme that starts earlier than a
member. -/
theorem epg_resolver_spec (programmes : List Programme) (channelId : String)
    (now : Int) (count : Nat) :
    (((getCurrentAndUpcoming programmes channelId now count).1 = none →
        ∀ p ∈ getProgrammesForChannel programmes channelId,
          ¬(p.start ≤ now ∧ now < p.stop))
      ∧ (∀ p, (getCurrentAndUpcoming programmes channelId now count).1 = some p →
          p ∈ getProgrammesForChannel programmes channelId
            ∧ (p.start ≤ now ∧ now < p.stop)
            ∧ ∀ q ∈ getProgrammesForChannel programmes channelId,
                q.start ≤ now → now < q.stop → p.start ≤ q.start))
    ∧ ((∀ p ∈ (getCurrentAndUpcoming programmes channelId now count).2,
          p ∈ getProgrammesForChannel programmes channelId ∧ now < p.start)
      ∧ ((getCurrentAndUpcoming programmes channelId now count).2).Sorted
          (fun a b => a.start ≤ b.start)
      ∧ ((getCurrentAndUpcoming programmes channelId now count).2).length
          = min count ((getProgrammesForChannel programmes channelId).countP
              (fun p => decide (now < p.start)))
      ∧ (∀ p ∈ (getCurrentAndUpcoming programmes channelId now count).2,
          ∀ q ∈ getProgrammesForChannel programmes channelId,
            now < q.start →
            q ∉ (getCurrentAndUpcoming programmes channelId now count).2 →
            p.start ≤ q.start)) := by
  have hperm := sortByStart_perm (getProgrammesForChannel programmes channelId)
  have hsort := sortByStart_sorted (getProgrammesForChannel programmes channelId)
  unfold getCurrentAndUpcoming
  dsimp only
  constructor
  · constructor
    · intro hnone p hp hcond
      have hnp := List.find?_eq_none.mp hnone p (hperm.mem_iff.mpr hp)
      simp [hcond.1, hcond.2] at hnp
    · intro p hp
      have hmem := List.mem_of_find?_eq_some hp
      have hpred := List.find?_some hp
      simp only [Bool.and_eq_true, decide_eq_true_eq] at hpred
      refine ⟨hperm.mem_iff.mp hmem, hpred, ?_⟩
      intro q hq h1 h2
      exact find_first_min hsort hp q (hperm.mem_iff.mpr hq) (by simp [h1, h2])
  · have hfsub : List.Sublist
        ((sortByStart (getProgrammesForChannel programmes channelId)).filter
          (fun p => decide (now < p.start)))
        (sortByStart (getProgrammesForChannel programmes channelId)) :=
      List.filter_sublist _
    have hfsort := hsort.sublist hfsub
    refine ⟨?_, ?_, ?_, ?_⟩
    · intro p hp
      have hpf := List.mem_of_mem_take hp
      have hmf := List.mem_filter.mp hpf
      exact ⟨hperm.mem_iff.mp hmf.1, by simpa using hmf.2⟩
    · exact hfsort.sublist (List.take_sublist _ _)
    · rw [List.length_take, ← List.countP_eq_length_filter, hperm.countP_eq]
    · intro p hpU q hqM hqt hqnU
      have hqF : q ∈ (sortByStart (getProgrammesForChannel programmes channelId)).filter
          (fun p => decide (now < p.start)) :=
        List.mem_filter.mpr ⟨hperm.mem_iff.mpr hqM, by simpa using hqt⟩
      have hqD : q ∈ ((sortByStart (getProgrammesForChannel programmes channelId)).filter
          (fun p => decide (now < p.start))).drop count := by
        rcases List.mem_append.mp (by rw [List.take_append_drop count]; exact hqF) with h | h
        · exact absurd h hqnU
        · exact h
      exact pairwise_take_drop hfsort count p hpU q hqD

theorem epg_resolver_spec_witness :
    (getCurrentAndUpcoming [progB, progA] "a" 5 5).2.length
      = min 5 ((getProgrammesForChannel [progB, progA] "a").countP
          (fun p => decide ((5 : Int) < p.start))) :=
  (epg_resolver_spec [progB, progA] "a" 5 5).2.2.2.1

/-! ## Claim C7: text extraction from language-tagged lists -/

theorem find?_of_first {α : Type} (p : α → Bool) :
    ∀ (xs : List α) (i : Nat) (hi : i < xs.length),
      p (xs.get ⟨i, hi⟩) = true →
      (∀ (j : Nat) (hj : j < i), p (xs.get ⟨j, Nat.lt_trans hj hi⟩) = false) →
      xs.find? p = some (xs.get ⟨i, hi⟩) := by
  intro xs
  induction xs with
  | nil => intro i hi; exact absurd hi (Nat.not_lt_zero i)
  | cons x t ih =>
    intro i hi hp hfirst
    cases i with
    | zero => exact List.find?_cons_of_pos _ hp
    | succ i2 =>
      have h0 : p x = false := hfirst 0 (Nat.succ_pos i2)
      rw [List.find?_cons_of_neg _ (by simp [h0])]
      exact ih i2 (Nat.lt_of_succ_lt_succ hi) hp
        (fun j hj => hfirst (j + 1) (Nat.succ_lt_succ hj))

theorem extractText_list_eq (xs : List XElem) :
    extractText (XElem.list xs)
      = match xs.find? qualifies with
        | some e => extractText e
        | none =>
          match xs with
          | [] => none
          | e :: _ => extractText e := by
  rw [extractText]
  split
  · next e heq => rw [heq]
  · next heq =>
    simp only [heq]
    cases xs with
    | nil => rfl
    | cons e t => rfl

/-- Claim C7 (amended): for a list value the extraction function returns the
extraction of the first entry (in document order) that is English-tagged or
untagged, with no preference of an English tag over an earlier untagged
entry; when no entry qualifies it falls back to the first entry, and the
empty list extracts to null. -/
theorem epg_extract_pref (xs : List XElem) :
    ((∀ (i : Nat) (hi : i < xs.length),
        qualifies (xs.get ⟨i, hi⟩) = true →
        (∀ (j : Nat) (hj : j < i), qualifies (xs.get ⟨j, Nat.lt_trans hj hi⟩) = false) →
        extractText (XElem.list xs) = extractText (xs.get ⟨i, hi⟩))
      ∧ ((∀ e ∈ xs, qualifies e = false) →
          extractText (XElem.list xs)
            = match xs with
              | [] => none
              | e :: _ => extractText e)) := by
  constructor
  · intro i hi hq hfirst
    rw [extractText_list_eq, find?_of_first qualifies xs i hi hq hfirst]
  · intro hall
    rw [extractText_list_eq,
      List.find?_eq_none.mpr (fun x hx => by simp [hall x hx])]

/-- Claim C7 counterexample: with an untagged entry before the
English-tagged entry, the function returns the untagged entry's text ("a"),
not the English entry's ("b") the claim's preference order requires. -/
theorem epg_extract_pref_cex :
    extractText (XElem.list
        [XElem.node none (some "a") none, XElem.node (some "en") (some "b") none])
      = some "a"
      ∧ extractText (XElem.node (some "en") (some "b") none) = some "b"
      ∧ some "a" ≠ some "b" := by
  refine ⟨?_, ?_, by decide⟩
  · simp [extractText, qualifies, jsTruthy, List.find?]
  · simp [extractText, jsTruthy]

theorem epg_extract_pref_witness :
    extractText (XElem.list [XElem.node (some "fr") (some "x") none, XElem.str "hello"])
      = extractText (XElem.str "hello")
      ∧ extractText (XElem.str "hello") = some "hello" :=
  ⟨(epg_extract_pref [XElem.node (some "fr") (some "x") none, XElem.str "hello"]).1
      1 (by decide) (by decide)
      (fun j hj => by
        have hj0 : j = 0 := by omega
        subst hj0
        exact (by decide : qualifies (XElem.node (some "fr") (some "x") none) = false)),
   by simp [extractText]⟩

/-! ## Claim C8: fixed-width digit reads -/

theorem readDigit_le {c : Char} {d : Nat} (h : readDigit c = some d) : d ≤ 9 := by
  unfold readDigit at h
  split at h
  · next hc =>
    injection h with h
    omega
  · exact absurd h (by simp)

theorem readFixedAux_drop :
    ∀ (n : Nat) (cs : List Char) (acc v : Nat) (r : List Char),
      readFixedAux acc n cs = some (v, r) → r = cs.drop n := by
  intro n
  induction n with
  | zero =>
    intro cs acc v r h
    simp only [readFixedAux, Option.some.injEq, Prod.mk.injEq] at h
    rw [List.drop_zero]
    exact h.2.symm
  | succ n ih =>
    intro cs acc v r h
    cases cs with
    | nil => simp [readFixedAux] at h
    | cons c t =>
      cases hd : readDigit c with
      | none => simp [readFixedAux, hd] at h
      | some d =>
        simp only [readFixedAux, hd] at h
        rw [List.drop_succ_cons]
        exact ih t _ v r h

theorem readFixedAux_take :
    ∀ (n : Nat) (cs : List Char) (acc v : Nat) (r tail : List Char),
      readFixedAux acc n cs = some (v, r) →
      readFixedAux acc n (cs.take n ++ tail) = some (v, tail) := by
  intro n
  induction n with
  | zero =>
    intro cs acc v r tail h
    simp only [readFixedAux, Option.some.injEq, Prod.mk.injEq] at h ⊢
    exact ⟨h.1, rfl⟩
  | succ n ih =>
    intro cs acc v r tail h
    cases cs with
    | nil => simp [readFixedAux] at h
    | cons c t =>
      rw [List.take_succ_cons, List.cons_append]
      cases hd : readDigit c with
      | none => simp [readFixedAux, hd] at h
      | some d =>
        simp only [readFixedAux, hd] at h
        simp only [readFixedAux, hd]
        exact ih t _ v r tail h

theorem readFixed_drop {n : Nat} {cs : List Char} {v : Nat} {r : List Char}
    (h : readFixed n cs = some (v, r)) : r = cs.drop n :=
  readFixedAux_drop n cs 0 v r h

theorem readFixed_take {n : Nat} {cs : List Char} {v : Nat} {r : List Char}
    (h : readFixed n cs = some (v, r)) :
    ∀ tail, readFixed n (cs.take n ++ tail) = some (v, tail) :=
  fun tail => readFixedAux_take n cs 0 v r tail h

theorem readFixedAux_split (m : Nat) :
    ∀ (n : Nat) (cs : List Char) (acc v : Nat) (r : List Char),
      readFixedAux acc (m + n) cs = some (v, r) →
      ∃ w mid, readFixedAux acc m cs = some (w, mid)
        ∧ readFixedAux w n mid = some (v, r) := by
  induction m with
  | zero =>
    intro n cs acc v r h
    rw [Nat.zero_add] at h
    exact ⟨acc, cs, rfl, h⟩
  | succ m ih =>
    intro n cs acc v r h
    have hadd : m + 1 + n = (m + n) + 1 := by omega
    rw [hadd] at h
    cases cs with
    | nil => simp [readFixedAux] at h
    | cons c t =>
      cases hd : readDigit c with
      | none => simp [readFixedAux, hd] at h
      | some d =>
        simp only [readFixedAux, hd] at h
        simp only [readFixedAux, hd]
        exact ih n t _ v r h

theorem readFixedAux_shift :
    ∀ (n : Nat) (cs : List Char) (a b u : Nat) (r : List Char),
      readFixedAux a n cs = some (u, r) →
      readFixedAux (a + b) n cs = some (u + b * 10 ^ n, r) := by
  intro n
  induction n with
  | zero =>
    intro cs a b u r h
    simp only [readFixedAux, Option.some.injEq, Prod.mk.injEq] at h ⊢
    refine ⟨?_, h.2⟩
    have := h.1
    simp only [pow_zero, Nat.mul_one]
    omega
  | succ n ih =>
    intro cs a b u r h
    cases cs with
    | nil => simp [readFixedAux] at h
    | cons c t =>
      cases hd : readDigit c with
      | none => simp [readFixedAux, hd] at h
      | some d =>
        simp only [readFixedAux, hd] at h
        simp only [readFixedAux, hd]
        have h2 := ih t (10 * a + d) (10 * b) u r h
        have e1 : 10 * (a + b) + d = 10 * a + d + 10 * b := by ring
        have e2 : u + 10 * b * 10 ^ n = u + b * 10 ^ (n + 1) := by ring
        rw [e1, ← e2]
        exact h2

theorem readFixedAux_strip :
    ∀ (n : Nat) (cs : List Char) (a u : Nat) (r : List Char),
      readFixedAux a n cs = some (u, r) →
      ∃ u0, readFixedAux 0 n cs = some (u0, r) ∧ u = a * 10 ^ n + u0 ∧ u0 < 10 ^ n := by
  intro n
  induction n with
  | zero =>
    intro cs a u r h
    simp only [readFixedAux, Option.some.injEq, Prod.mk.injEq] at h
    exact ⟨0, by simp [readFixedAux, h.2], by simp [← h.1], by simp⟩
  | succ n ih =>
    intro cs a u r h
    cases cs with
    | nil => simp [readFixedAux] at h
    | cons c t =>
      cases hd : readDigit c with
      | none => simp [readFixedAux, hd] at h
      | some d =>
        simp only [readFixedAux, hd] at h
        simp only [readFixedAux, hd, Nat.mul_zero, Nat.zero_add]
        obtain ⟨u0, hu0, hval, hlt⟩ := ih t (10 * a + d) u r h
        have hshift := readFixedAux_shift n t 0 d u0 r hu0
        rw [Nat.zero_add] at hshift
        refine ⟨d * 10 ^ n + u0, by rw [Nat.add_comm (d * 10 ^ n) u0]; exact hshift, ?_, ?_⟩
        · rw [hval]; ring
        · have hd9 := readDigit_le hd
          have h10 : 10 ^ (n + 1) = 10 * 10 ^ n := by ring
          have hp : 0 < 10 ^ n := Nat.pos_pow_of_pos n (by omega)
          calc d * 10 ^ n + u0 < d * 10 ^ n + 10 ^ n := by omega
            _ = (d + 1) * 10 ^ n := by ring
            _ ≤ 10 * 10 ^ n := Nat.mul_le_mul_right _ (by omega)
            _ = 10 ^ (n + 1) := h10.symm

theorem readFixed_four_split {cs : List Char} {v : Nat}
    (h : readFixed 4 cs = some (v, [])) :
    readFixed 2 cs = some (v / 100, cs.drop 2)
      ∧ readFixed 2 (cs.drop 2) = some (v % 100, []) ∧ v ≤ 9999 := by
  obtain ⟨w, mid, h1, h2⟩ := readFixedAux_split 2 2 cs 0 v [] h
  have hmid : mid = cs.drop 2 := readFixedAux_drop 2 cs 0 w mid h1
  obtain ⟨u0, hu0, hval, hlt⟩ := readFixedAux_strip 2 mid w v [] h2
  have hw100 : (10 : Nat) ^ 2 = 100 := by norm_num
  rw [hw100] at hval hlt
  have hwlt : w < 100 := by
    obtain ⟨w0, hw0, hwv, hwl⟩ := readFixedAux_strip 2 cs 0 w mid h1
    rw [hw100] at hwl
    omega
  have hdiv : v / 100 = w := by omega
  have hmod : v % 100 = u0 := by omega
  refine ⟨?_, ?_, by omega⟩
  · rw [hdiv, ← hmid]; exact h1
  · rw [hmod, ← hmid]; exact hu0

/-! ## Claim C8: date normalization -/

theorem expectChar_cons_self (c : Char) (r : List Char) :
    expectChar c (c :: r) = some r := by
  simp [expectChar]

/-- Evaluating the reconstructed ISO date-time prefix: when the six slices
re-read to the original field values, `jsParseIso` reduces to the zone
parser on the remaining tail. -/
theorem jsParseIso_of_reads
    {cs : List Char} {y mo d hr mi sec : Nat}
    (h1 : readFixed 4 cs = some (y, cs.drop 4))
    (h2 : readFixed 2 (cs.drop 4) = some (mo, cs.drop 6))
    (h3 : readFixed 2 (cs.drop 6) = some (d, cs.drop 8))
    (h4 : readFixed 2 (cs.drop 8) = some (hr, cs.drop 10))
    (h5 : readFixed 2 (cs.drop 10) = some (mi, cs.drop 12))
    (h6 : readFixed 2 (cs.drop 12) = some (sec, cs.drop 14))
    (hvf : validFields y mo d hr mi sec = true)
    (ztail : List Char) :
    jsParseIso (cs.take 4 ++ '-' :: ((cs.drop 4).take 2) ++ '-' :: ((cs.drop 6).take 2)
        ++ 'T' :: ((cs.drop 8).take 2) ++ ':' :: ((cs.drop 10).take 2)
        ++ ':' :: ((cs.drop 12).take 2) ++ ztail)
      = jsParseZone (utcMsOf y mo d hr mi sec) ztail := by
  unfold jsParseIso
  simp only [List.append_assoc, List.cons_append]
  rw [readFixed_take h1]
  dsimp only
  rw [expectChar_cons_self]
  dsimp only
  rw [readFixed_take h2]
  dsimp only
  rw [expectChar_cons_self]
  dsimp only
  rw [readFixed_take h3]
  dsimp only
  rw [expectChar_cons_self]
  dsimp only
  rw [readFixed_take h4]
  dsimp only
  rw [expectChar_cons_self]
  dsimp only
  rw [readFixed_take h5]
  dsimp only
  rw [expectChar_cons_self]
  dsimp only
  rw [readFixed_take h6]
  dsimp only
  rw [if_pos hvf]

theorem jsParseZone_z (base : Int) : jsParseZone base ['Z'] = some base := by
  simp [jsParseZone]

theorem jsParseZone_offset (base : Int) (c : Char) (rest2 : List Char) {v : Nat}
    (hc : c = '+' ∨ c = '-') (hv : readFixed 4 rest2 = some (v, []))
    (hoh : v / 100 ≤ 23) (hom : v % 100 ≤ 59) :
    jsParseZone base ((c :: rest2).take 3 ++ ':' :: (c :: rest2).drop 3)
      = some (base - tzOffsetMs (some (c == '+', v / 100, v % 100))) := by
  obtain ⟨hr2a, hr2b, _⟩ := readFixed_four_split hv
  have hcz : ¬(c = 'Z') := by
    rcases hc with rfl | rfl <;> decide
  rw [List.take_succ_cons, List.drop_succ_cons, List.cons_append]
  simp only [jsParseZone]
  rw [if_neg hcz, if_pos hc]
  rw [readFixed_take hr2a]
  dsimp only
  rw [expectChar_cons_self]
  dsimp only
  rw [hr2b]
  dsimp only
  rw [if_pos rfl]
  simp [hoh, hom]

/-- Claim C8: for every string matching the XMLTV date pattern whose
calendar fields are in range, `parseXmltvDate` resolves to the absolute
instant given by interpreting the fields in the attached offset, or in UTC
when no offset is present. -/
theorem epg_date_correct (s : String) (y mo d hr mi sec : Nat)
    (tz : Option (Bool × Nat × Nat))
    (hm : xmltvMatch s.data = some (y, mo, d, hr, mi, sec, tz))
    (hmo1 : 1 ≤ mo) (hmo2 : mo ≤ 12) (hd1 : 1 ≤ d) (hd2 : d ≤ daysInMonth y mo)
    (hhr : hr ≤ 23) (hmi : mi ≤ 59) (hsec : sec ≤ 59)
    (htz : ∀ sg oh om, tz = some (sg, oh, om) → oh ≤ 23 ∧ om ≤ 59) :
    parseXmltvDate s = DateResult.instant (utcMsOf y mo d hr mi sec - tzOffsetMs tz) := by
  have hm0 := hm
  unfold xmltvMatch at hm
  cases h1 : readFixed 4 s.data with
  | none => rw [h1] at hm; exact absurd hm (by simp)
  | some p1 =>
  obtain ⟨y1, r1⟩ := p1
  rw [h1] at hm
  dsimp only at hm
  cases h2 : readFixed 2 r1 with
  | none => rw [h2] at hm; exact absurd hm (by simp)
  | some p2 =>
  obtain ⟨mo1, r2⟩ := p2
  rw [h2] at hm
  dsimp only at hm
  cases h3 : readFixed 2 r2 with
  | none => rw [h3] at hm; exact absurd hm (by simp)
  | some p3 =>
  obtain ⟨d1, r3⟩ := p3
  rw [h3] at hm
  dsimp only at hm
  cases h4 : readFixed 2 r3 with
  | none => rw [h4] at hm; exact absurd hm (by simp)
  | some p4 =>
  obtain ⟨hr1, r4⟩ := p4
  rw [h4] at hm
  dsimp only at hm
  cases h5 : readFixed 2 r4 with
  | none => rw [h5] at hm; exact absurd hm (by simp)
  | some p5 =>
  obtain ⟨mi1, r5⟩ := p5
  rw [h5] at hm
  dsimp only at hm
  cases h6 : readFixed 2 r5 with
  | none => rw [h6] at hm; exact absurd hm (by simp)
  | some p6 =>
  obtain ⟨sec1, r6⟩ := p6
  rw [h6] at hm
  dsimp only at hm
  cases hz : xmltvZone (r6.dropWhile isJsWs) with
  | none => rw [hz] at hm; exact absurd hm (by simp)
  | some tz1 =>
  rw [hz] at hm
  dsimp only at hm
  simp only [Option.some.injEq, Prod.mk.injEq] at hm
  obtain ⟨hy, hmo, hdd, hhh, hmim, hss, htzz⟩ := hm
  rw [hy] at h1
  rw [hmo] at h2
  rw [hdd] at h3
  rw [hhh] at h4
  rw [hmim] at h5
  rw [hss] at h6
  rw [htzz] at hz
  have e1 : r1 = s.data.drop 4 := readFixed_drop h1
  subst e1
  have e2 : r2 = s.data.drop 6 := by
    have := readFixed_drop h2
    simpa [List.drop_drop] using this
  subst e2
  have e3 : r3 = s.data.drop 8 := by
    have := readFixed_drop h3
    simpa [List.drop_drop] using this
  subst e3
  have e4 : r4 = s.data.drop 10 := by
    have := readFixed_drop h4
    simpa [List.drop_drop] using this
  subst e4
  have e5 : r5 = s.data.drop 12 := by
    have := readFixed_drop h5
    simpa [List.drop_drop] using this
  subst e5
  have e6 : r6 = s.data.drop 14 := by
    have := readFixed_drop h6
    simpa [List.drop_drop] using this
  subst e6
  have hse : ¬(s = "") := by
    intro he
    have hnone : readFixed 4 ("" : String).data = none := by decide
    rw [he, hnone] at h1
    exact absurd h1 (by simp)
  have hvf : validFields y mo d hr mi sec = true := by
    simp [validFields, hmo1, hmo2, hd1, hd2, hhr, hmi, hsec]
  unfold parseXmltvDate
  rw [if_neg hse, hm0]
  dsimp only
  unfold xmltvIso
  cases hw : (s.data.drop 14).dropWhile isJsWs with
  | nil =>
    rw [hw] at hz
    have htznone : tz = none := by
      simp [xmltvZone] at hz
      exact hz.symm
    subst htznone
    dsimp only
    rw [jsParseIso_of_reads h1 h2 h3 h4 h5 h6 hvf ['Z'], jsParseZone_z]
    dsimp only
    rw [show tzOffsetMs none = 0 from rfl, sub_zero]
  | cons c rest2 =>
    rw [hw] at hz
    unfold xmltvZone at hz
    dsimp only at hz
    by_cases hpm : c = '+' ∨ c = '-'
    · rw [if_pos hpm] at hz
      cases hv : readFixed 4 rest2 with
      | none => rw [hv] at hz; exact absurd hz (by simp)
      | some pv =>
        obtain ⟨v, leftover⟩ := pv
        rw [hv] at hz
        dsimp only at hz
        by_cases hleft : leftover = []
        · subst hleft
          rw [if_pos rfl] at hz
          injection hz with hz
          subst hz
          obtain ⟨hoh, hom⟩ := htz (c == '+') (v / 100) (v % 100) rfl
          dsimp only
          rw [jsParseIso_of_reads h1 h2 h3 h4 h5 h6 hvf
              ((c :: rest2).take 3 ++ ':' :: (c :: rest2).drop 3),
            jsParseZone_offset _ c rest2 hpm hv hoh hom]
        · rw [if_neg hleft] at hz
          exact absurd hz (by simp)
    · rw [if_neg hpm] at hz
      exact absurd hz (by simp)

theorem epg_date_correct_witness :
    xmltvMatch ("20231225120000 +0000").data
        = some (2023, 12, 25, 12, 0, 0, some (true, 0, 0))
      ∧ parseXmltvDate "20231225120000 +0000" = DateResult.instant 1703505600000 := by
  refine ⟨by rfl, ?_⟩
  have h := epg_date_correct "20231225120000 +0000" 2023 12 25 12 0 0
    (some (true, 0, 0)) (by rfl) (by decide) (by decide) (by decide) (by decide)
    (by decide) (by decide) (by decide)
    (fun sg oh om hsome => by
      obtain ⟨ha, hb, hc⟩ : true = sg ∧ (0 : Nat) = oh ∧ (0 : Nat) = om := by
        simpa [Prod.ext_iff] using hsome
      rw [← hb, ← hc]
      exact ⟨by decide, by decide⟩)
  rw [h]
  decide

end NodecastTV
